import Mathlib

/-!
Verification development for the `@linear/plugin-sdk` graphql-codegen plugin
(`packages/plugin-sdk/src/index.ts`) and its document-to-chain resolution
pipeline.

The host-facing entry points (`plugin`, `validate`, the prepend list and the
`fragments: []` context override) are embedded directly from
`packages/plugin-sdk/src/index.ts`.  The chain-resolution core
(`getSdkDefinitions`, the `ModelVisitor`, `printRequesterType`,
`ContextVisitor`) lives in sibling modules of the repository that are not part
of the provided sources; those components are modelled from the specification
(sections 3, 4.1-4.4 and 8) and each such definition carries a doc comment
starting with `Modelled from the spec:`.
-/

namespace LinearSdk

/-! ## Basic data model -/

/-- A selected field of a model: field name plus the printed type reference
(for example `ID!` or `String!`). -/
structure FieldSel where
  name : String
  tpe : String
deriving DecidableEq

/-- A declared variable of an operation document: name, printed type and
whether the variable is required (non-null). -/
structure Variable where
  name : String
  tpe : String
  required : Bool
deriving DecidableEq

/-- Modelled from the spec: an `SdkModel` (section 3) is a named, concrete
field-selection shape derived from a schema type. -/
structure SdkModel where
  name : String
  fields : List FieldSel
deriving DecidableEq

/-- Root operation kind of a document. -/
inductive OpKind where
  | query
  | mutation
  | subscription
deriving DecidableEq

/-- Modelled from the spec: an `OperationDocument` (section 3) — operation
name, kind, declared variables and the name of its result model. -/
structure OperationDoc where
  name : String
  kind : OpKind
  vars : List Variable
  resultModel : String
deriving DecidableEq

/-! ## Host-boundary configuration (from `src/packages/plugin-sdk/src/index.ts`) -/

/-- Document mode of `@graphql-codegen/visitor-plugin-common`, as consumed by
the plugin (`config.documentMode !== DocumentMode.string`). -/
inductive DocumentMode where
  | string
  | documentNode
  | documentNodeImportFragments
  | graphQLTag
  | externalFile
deriving DecidableEq

/-- A raw javascript configuration value: a string, an absent/falsy value
(`undefined`, `null`, `0`, `false`), or a truthy value of another type.  The
`truthy` flag of `nonStr` records how javascript coerces it in `!x`. -/
inductive ConfigValue where
  | str (s : String)
  | absent
  | nonStr (truthy : Bool)
deriving DecidableEq

/-- The raw plugin configuration (`RawSdkPluginConfig`): the path to the
typed-document file and the document mode. -/
structure RawSdkPluginConfig where
  documentFile : ConfigValue
  documentMode : DocumentMode
deriving DecidableEq

/-- Javascript truthiness of a configuration value (`!config.documentFile`
negated). -/
def isTruthy : ConfigValue → Bool
  | .str s => !s.isEmpty
  | .absent => false
  | .nonStr t => t

/-- Whether `typeof v === "string"` holds. -/
def isStringValue : ConfigValue → Bool
  | .str _ => true
  | _ => false

/-- The test `!config.documentFile || typeof config.documentFile !== "string"`
from `validate` (line 116 of `index.ts`). -/
def documentFileInvalid (v : ConfigValue) : Bool :=
  !(isTruthy v) || !(isStringValue v)

/-! ## The `extname` helper of node's `path` module

`validate` rejects an output file whose `extname` is not `".ts"`.  Node's
`extname` returns the substring of the basename starting at its last dot,
unless that dot is the basename's first character (or there is no dot), in
which case it returns the empty string. -/

/-- Basename characters of a path: the suffix after the last `/`. -/
def basenameChars (p : String) : List Char :=
  (p.data.reverse.takeWhile (fun c => c ≠ '/')).reverse

/-- Model of node's `path.extname`. -/
def extname (p : String) : String :=
  let b := basenameChars p
  let afterDot := b.reverse.takeWhile (fun c => c ≠ '.')
  if afterDot.length + 1 < b.length then String.mk ('.' :: afterDot.reverse) else ""

/-! ## The `validate` entry point (lines 100-119 of `index.ts`) -/

/-- The schema argument of the plugin entry points; `validate` never inspects
it. -/
structure GraphQLSchemaRepr where
  sdl : String
deriving DecidableEq

/-- The message stem `Plugin "@linear/plugin-sdk" config requires` (line 110). -/
def msgStem : String :=
  "Plugin \x22\x40linear/plugin-sdk\x22 config requires"

/-- The error message raised for a bad output extension (line 113). -/
def extMessage (outputFile : String) : String :=
  msgStem ++ " output file extension to be \x22.ts\x22 but is \x22" ++ outputFile ++ "\x22"

/-- The error message raised for a missing or invalid `documentFile`
(line 117). -/
def documentFileMessage : String :=
  msgStem ++ " documentFile to be a string path to a document file generated by \x22typed-document-node\x22"

/-- The `validate` plugin entry point: rejects an output file whose extension
is not `.ts`, then rejects a `documentFile` that is not a non-empty string. -/
def validate (_schema : GraphQLSchemaRepr) (_documents : List OperationDoc)
    (config : RawSdkPluginConfig) (outputFile : String) : Except String Unit :=
  if extname outputFile ≠ ".ts" then
    .error (extMessage outputFile)
  else if documentFileInvalid config.documentFile then
    .error documentFileMessage
  else
    .ok ()

/-! ## PluginContext construction (lines 26-33 of `index.ts`) -/

/-- A fragment definition: fragment name mapped to its selection-set AST
(modelled as the list of selected field names). -/
structure FragmentDef where
  name : String
  selections : List String
deriving DecidableEq

/-- A type descriptor gathered by the context visitor. -/
structure TypeDescriptor where
  name : String
  fields : List FieldSel
deriving DecidableEq

/-- The parsed schema AST, as consumed by the context visitor: type
definitions plus any fragment definitions present in the input. -/
structure SchemaAst where
  types : List TypeDescriptor
  fragmentDefs : List FragmentDef
deriving DecidableEq

/-- The `PluginContext` record: schema-derived type lookup plus the fragment
registry. -/
structure PluginContextM where
  typeLookup : List TypeDescriptor
  fragments : List FragmentDef
deriving DecidableEq

/-- Modelled from the spec: the `ContextVisitor`/`SchemaContextBuilder` of
`@linear/plugin-common` (sections 2 and 4.1, not among the provided sources)
builds the type lookup from the AST together with the fragment registry
(fragment name mapped to selection-set AST). -/
def contextVisitorContext (_config : RawSdkPluginConfig) (ast : SchemaAst) : PluginContextM :=
  { typeLookup := ast.types, fragments := ast.fragmentDefs }

/-- The context the plugin actually builds and shares downstream (lines 30-33
of `index.ts`): the visitor's context spread into a new record whose
`fragments` field is overridden with the empty list. -/
def buildPluginContext (config : RawSdkPluginConfig) (ast : SchemaAst) : PluginContextM :=
  { contextVisitorContext config ast with fragments := [] }

/-! ## Prepend lines and the requester contract (lines 67-90 of `index.ts`) -/

/-- The eslint-disable prepend line (line 71). -/
def eslintLine : String :=
  "/* eslint-disable \x40typescript-eslint/no-unused-vars */"

/-- The conditional `DocumentNode` import (line 73). -/
def documentNodeImportLine : String :=
  "import \x7b DocumentNode \x7d from \x27graphql\x27"

/-- The `ResultOf` import (line 75). -/
def resultOfImportLine : String :=
  "import \x7b ResultOf \x7d from \x27\x40graphql-typed-document-node/core\x27"

/-- The prepend list returned by the plugin (lines 69-76): the eslint line,
the `DocumentNode` import when the document mode is not the string mode
(`undefined` otherwise, removed by the `nonNullable` filter), and the
`ResultOf` import. -/
def pluginPrepend (config : RawSdkPluginConfig) : List String :=
  ([ some eslintLine,
     if config.documentMode ≠ DocumentMode.string then some documentNodeImportLine else none,
     some resultOfImportLine ]).filterMap id

/-- Modelled from the spec: the requester contract (section 4.4) has exactly
two variants selected by the document mode, differing only in the static type
of the accepted document. -/
def requesterDocType (config : RawSdkPluginConfig) : String :=
  if config.documentMode = DocumentMode.string then "string" else "DocumentNode"

/-- Modelled from the spec: `printRequesterType` (the `./requester` module,
not among the provided sources) prints the single requester function
signature, whose document parameter type is selected by the document mode. -/
def printRequesterType (config : RawSdkPluginConfig) : List String :=
  [ "export type LinearRequester<C = undefined> = <R, V>(doc: "
      ++ requesterDocType config
      ++ ", vars?: V, opts?: C) => Promise<R>" ]

/-- The document-namespace import line (line 80). -/
def importDocumentsLine (config : RawSdkPluginConfig) : String :=
  "import * as D from \x27" ++ (match config.documentFile with | .str s => s | _ => "") ++ "\x27"

/-- The document re-export line (line 81). -/
def exportDocumentsLine (config : RawSdkPluginConfig) : String :=
  "export * from \x27" ++ (match config.documentFile with | .str s => s | _ => "") ++ "\x27\n"

/-- The assembled `content` of a successful plugin run (lines 77-89):
document imports, requester type, printed models and printed operations,
joined by newlines. -/
def assembleContent (config : RawSdkPluginConfig) (printedModels printedOperations : String) : String :=
  String.intercalate "\n"
    ([importDocumentsLine config, exportDocumentsLine config]
      ++ printRequesterType config
      ++ [printedModels, printedOperations])

/-! ## The plugin run (lines 17-95 of `index.ts`) -/

/-- The plugin's full output: prepend lines plus joined content. -/
structure PluginOutput where
  prepend : List String
  content : String
deriving DecidableEq

/-- The `try ... catch (e) { logger.fatal(e); throw e; }` wrapper of the
plugin body (lines 22 and 91-94): the caught error is rethrown unchanged. -/
def tryCatchRethrow {E A : Type} (x : Except E A) : Except E A :=
  match x with
  | .error e => .error e
  | .ok v => .ok v

/-- The plugin run (lines 17-95): parse the schema, build the context,
extract the models, resolve the chain definitions, print models and classes,
and assemble the single output record.  Each stage is a parameter so that a
stage that throws is modelled by a stage returning `Except.error`; the whole
body is wrapped in the rethrowing catch. -/
def runPlugin {E Schema Ast Ctx Models Docs Defs : Type}
    (parseSchemaAst : Schema → Except E Ast)
    (buildContext : Ast → Except E Ctx)
    (extractModels : Ctx → Ast → Except E Models)
    (resolveDefinitions : Ctx → Docs → Models → Except E Defs)
    (printModels : Ctx → Models → Defs → Except E String)
    (printClasses : Ctx → Models → Defs → Except E String)
    (schema : Schema) (documents : Docs) (config : RawSdkPluginConfig) :
    Except E PluginOutput :=
  tryCatchRethrow (do
    let ast ← parseSchemaAst schema
    let ctx ← buildContext ast
    let models ← extractModels ctx ast
    let defs ← resolveDefinitions ctx documents models
    let printedModels ← printModels ctx models defs
    let printedOperations ← printClasses ctx models defs
    pure { prepend := pluginPrepend config,
           content := assembleContent config printedModels printedOperations })

/-! ## ChainResolver: classification (spec section 4.3, Step 1)

The chain resolution core (`getSdkDefinitions` of `./definitions`) is not
among the provided sources; everything in this section is modelled from the
specification. -/

/-- Whether a selected field can satisfy a declared variable: same name and
same type. -/
def fieldMatches (f : FieldSel) (v : Variable) : Bool :=
  f.name == v.name && f.tpe == v.tpe

/-- Whether a model's selected fields satisfy a variable. -/
def modelSatisfies (m : SdkModel) (v : Variable) : Bool :=
  m.fields.any (fun f => fieldMatches f v)

/-- Modelled from the spec: Step 1 of chain resolution (section 4.3) — an
operation is a candidate child of model `M` when it has at least one required
variable and every required variable appears, under the same name and type,
among `M`'s selected fields. -/
def chainsUnder (op : OperationDoc) (m : SdkModel) : Bool :=
  op.vars.any (fun v => v.required) && op.vars.all (fun v => !v.required || modelSatisfies m v)

/-- Number of the operation's variables satisfied by a model: the measure of
how specific a candidate parent is. -/
def matchCount (op : OperationDoc) (m : SdkModel) : Nat :=
  (op.vars.filter (fun v => modelSatisfies m v)).length

/-- Fields of the named model, when the model is known. -/
def modelFields (models : List SdkModel) (name : String) : List FieldSel :=
  match models.find? (fun m => m.name == name) with
  | some m => m.fields
  | none => []

/-- The result model of an operation document, resolved against the model
list. -/
def resultModelOf (models : List SdkModel) (p : OperationDoc) : SdkModel :=
  { name := p.resultModel, fields := modelFields models p.resultModel }

/-- Keep the more specific of two candidate parents (larger number of
matching fields), preferring the earlier-declared one on ties. -/
def pickMoreSpecific (op : OperationDoc) (best : Option SdkModel) (m : SdkModel) : Option SdkModel :=
  match best with
  | none => some m
  | some b => if matchCount op m > matchCount op b then some m else some b

/-- Modelled from the spec: Step 2's parent choice — among the result models
of the other operations in the document list that the operation chains under,
pick the most specific one (largest number of matching fields), ties broken
by declaration order in the document list.  `none` means the operation has no
satisfiable parent and stands alone. -/
def bestParent (models : List SdkModel) (docs : List OperationDoc) (op : OperationDoc) : Option SdkModel :=
  (((docs.filter (fun p => !(p == op))).map (resultModelOf models)).filter
      (fun m => chainsUnder op m)).foldl
    (pickMoreSpecific op) none

/-- Name of the chosen parent model, when one exists. -/
def bestParentName (models : List SdkModel) (docs : List OperationDoc) (op : OperationDoc) : Option String :=
  (bestParent models docs op).map (fun m => m.name)

/-! ## ChainResolver: tree assembly (spec section 4.3, Step 2) -/

/-- Modelled from the spec: an `SdkDefinition` chain node (section 3) —
operation, generated call name, owning path of ancestor model names, the
required arguments still to be supplied, and the ordered children. -/
structure SdkDefinition where
  op : OperationDoc
  callName : String
  path : List String
  requiredArgs : List Variable
  children : List SdkDefinition

/-- Modelled from the spec: tree assembly (section 4.3, Step 2) — under a
node whose result model is `parentModel`, attach in document order every
pending operation whose chosen parent is that model, and recurse below each
attached operation on the operations that were not attached at this level.
The first list argument is the full (kind-filtered) document list against
which chaining intent is classified; the fuel argument bounds the depth and
exceeds the number of documents at the top call. -/
def buildChildren (models : List SdkModel) (docs : List OperationDoc) : Nat → String → List String → List OperationDoc → List SdkDefinition
  | 0, _, _, _ => []
  | fuel + 1, parentModel, path, pending =>
    let mine := pending.filter (fun op => bestParentName models docs op == some parentModel)
    let rest := pending.filter (fun op => !(bestParentName models docs op == some parentModel))
    mine.map (fun op =>
      { op := op
        callName := op.name
        path := path
        requiredArgs := []
        children := buildChildren models docs fuel op.resultModel (path ++ [op.resultModel]) rest })

/-- Modelled from the spec: the forest for one operation kind — roots are the
operations with no satisfiable parent, in document order; all other
operations are attached below them. -/
def assembleForest (models : List SdkModel) (docs : List OperationDoc) : List SdkDefinition :=
  let roots := docs.filter (fun op => (bestParent models docs op).isNone)
  let nonroots := docs.filter (fun op => (bestParent models docs op).isSome)
  roots.map (fun op =>
    { op := op
      callName := op.name
      path := []
      requiredArgs := []
      children := buildChildren models docs (docs.length + 1) op.resultModel [op.resultModel] nonroots })

/-! ## ChainResolver: argument elision (spec section 4.3, Step 4) -/

/-- Modelled from the spec: the minimal argument list callers must still
supply — declared variables minus those inherited from the ancestor chain. -/
def elideArgs (inherited : List FieldSel) (op : OperationDoc) : List Variable :=
  op.vars.filter (fun v => v.required && !(inherited.any (fun f => fieldMatches f v)))

/-- Modelled from the spec: Step 4 recomputes each node's required arguments
as a pure function of the tree path, accumulating the fields made available
by each ancestor's result model. -/
def elideNode (models : List SdkModel) : Nat → List FieldSel → SdkDefinition → SdkDefinition
  | 0, _, d => d
  | fuel + 1, inherited, d =>
    { d with
      requiredArgs := elideArgs inherited d.op
      children := d.children.map
        (elideNode models fuel (inherited ++ modelFields models d.op.resultModel)) }

/-- Argument elision over a whole forest. -/
def elideForest (models : List SdkModel) (fuel : Nat) (inherited : List FieldSel)
    (forest : List SdkDefinition) : List SdkDefinition :=
  forest.map (elideNode models fuel inherited)

/-! ## ChainResolver: name collision resolution (spec section 4.3, Step 3) -/

/-- Modelled from the spec: the candidate call names tried for a base name —
the base name itself, then the base name with an incrementing disambiguator
suffix `2`, `3`, ... up to the configured limit. -/
def candidates (base : String) (limit : Nat) : List String :=
  ("" :: (List.range limit).map (fun k => toString (k + 2))).map (fun s => base ++ s)

/-- Modelled from the spec: pick the first candidate name not already used. -/
def pickName (used : List String) (limit : Nat) (base : String) : Option String :=
  (candidates base limit).find? (fun n => decide (n ∉ used))

/-- The payload of a `ChainNameConflict` error: the operation whose name
could not be disambiguated and the clashing candidate names, all of which
were already taken. -/
structure ConflictInfo where
  op : String
  clashes : List String
deriving DecidableEq

/-- Modelled from the spec: Step 3 — assign call names to a sibling list in
document order; a later-declared sibling whose base name is taken receives
the first free disambiguated candidate, and when every candidate is taken a
`ChainNameConflict` is recorded naming the operation and the clashing
names. -/
def resolveNames (limit : Nat) : List String → List String → List String × List ConflictInfo
  | _, [] => ([], [])
  | used, base :: rest =>
    match pickName used limit base with
    | some n =>
      (n :: (resolveNames limit (n :: used) rest).1,
       (resolveNames limit (n :: used) rest).2)
    | none =>
      (base :: (resolveNames limit (base :: used) rest).1,
       { op := base, clashes := candidates base limit } :: (resolveNames limit (base :: used) rest).2)

/-- Modelled from the spec: apply name collision resolution to every sibling
list of a forest, collecting every conflict found. -/
def renameChildren (limit : Nat) : Nat → List SdkDefinition → List SdkDefinition × List ConflictInfo
  | 0, ds => (ds, [])
  | fuel + 1, ds =>
    ((ds.zip (resolveNames limit [] (ds.map (fun d => d.op.name))).1).map (fun p =>
        { p.1 with callName := p.2, children := (renameChildren limit fuel p.1.children).1 }),
     (resolveNames limit [] (ds.map (fun d => d.op.name))).2 ++
       ((ds.zip (resolveNames limit [] (ds.map (fun d => d.op.name))).1).map (fun p =>
          (renameChildren limit fuel p.1.children).2)).flatten)

/-! ## ChainResolver: the full resolution (spec section 4.3) -/

/-- Modelled from the spec: the full `SdkDefinitions` output — one resolved
forest per root operation kind. -/
structure SdkDefinitions where
  queries : List SdkDefinition
  mutations : List SdkDefinition
  subscriptions : List SdkDefinition

/-- Modelled from the spec: resolve the documents of one operation kind —
classify, assemble the forest, elide arguments, then resolve call names;
returns the renamed forest together with every name conflict found. -/
def resolveKind (limit : Nat) (models : List SdkModel) (docs : List OperationDoc)
    (k : OpKind) : List SdkDefinition × List ConflictInfo :=
  let kdocs := docs.filter (fun d => d.kind == k)
  let fuel := kdocs.length + 1
  let assembled := assembleForest models kdocs
  let elided := elideForest models fuel [] assembled
  renameChildren limit fuel elided

/-- Modelled from the spec: `getSdkDefinitions(context, documents, models)` —
partition the documents by root operation kind, resolve each partition, and
fail with the collected `ChainNameConflict` information when any sibling list
could not be disambiguated within the configured limit. -/
def getSdkDefinitions (limit : Nat) (docs : List OperationDoc)
    (models : List SdkModel) : Except (List ConflictInfo) SdkDefinitions :=
  if ((resolveKind limit models docs .query).2 ++ (resolveKind limit models docs .mutation).2
      ++ (resolveKind limit models docs .subscription).2).isEmpty then
    .ok { queries := (resolveKind limit models docs .query).1
          mutations := (resolveKind limit models docs .mutation).1
          subscriptions := (resolveKind limit models docs .subscription).1 }
  else
    .error ((resolveKind limit models docs .query).2 ++ (resolveKind limit models docs .mutation).2
      ++ (resolveKind limit models docs .subscription).2)

/-- The three forests of an `SdkDefinitions` value. -/
def SdkDefinitions.forests (d : SdkDefinitions) : List (List SdkDefinition) :=
  [d.queries, d.mutations, d.subscriptions]

/-- The forest holding the roots of a given operation kind. -/
def SdkDefinitions.forestOf (d : SdkDefinitions) : OpKind → List SdkDefinition
  | .query => d.queries
  | .mutation => d.mutations
  | .subscription => d.subscriptions

/-! ## Tree reachability -/

/-- Strict descendant relation on chain nodes. -/
inductive Descendant : SdkDefinition → SdkDefinition → Prop
  | of_child {c d : SdkDefinition} : c ∈ d.children → Descendant c d
  | of_trans {x c d : SdkDefinition} : Descendant x c → c ∈ d.children → Descendant x d

/-- A node reachable in a tree: the root itself or a strict descendant. -/
def Reach (x t : SdkDefinition) : Prop :=
  x = t ∨ Descendant x t

/-- A node occurring somewhere in a forest. -/
def InForest (x : SdkDefinition) (f : List SdkDefinition) : Prop :=
  ∃ t ∈ f, Reach x t

/-- Whether a node satisfies the chaining contract towards each of its
children: every required variable of a child appears, under the same name and
type, among the selected fields of the model named by the parent's result
model. -/
def ChildOk (models : List SdkModel) (p : SdkDefinition) : Prop :=
  ∀ c ∈ p.children, ∀ v ∈ c.op.vars, v.required = true →
    ∃ fld ∈ modelFields models p.op.resultModel, fld.name = v.name ∧ fld.tpe = v.tpe

/-! ## Concrete scenario (spec section 8)

`query issue(id: ID!): Issue` and `query issueComments(id: ID!): Comments`
against a model `Issue { id: ID! }`: `issueComments` resolves as a child of
`issue` with its `id` argument elided. -/

/-- The identifying variable `id: ID!`. -/
def idVar : Variable := { name := "id", tpe := "ID!", required := true }

/-- The operation `query issue(id: ID!): Issue`. -/
def issueOp : OperationDoc :=
  { name := "issue", kind := .query, vars := [idVar], resultModel := "Issue" }

/-- The operation `query issueComments(id: ID!): Comments`. -/
def commentsOp : OperationDoc :=
  { name := "issueComments", kind := .query, vars := [idVar], resultModel := "Comments" }

/-- The model `Issue` selecting the identifying field `id: ID!`. -/
def issueModel : SdkModel :=
  { name := "Issue", fields := [{ name := "id", tpe := "ID!" }] }

/-- The resolved chain node for `issueComments`, chained below `issue` with
its `id` argument elided. -/
def commentsChildNode : SdkDefinition :=
  { op := commentsOp, callName := "issueComments", path := ["Issue"],
    requiredArgs := [], children := [] }

/-- The resolved root chain node for `issue`. -/
def issueChainNode : SdkDefinition :=
  { op := issueOp, callName := "issue", path := [], requiredArgs := [idVar],
    children := [commentsChildNode] }

/-- The full resolved definitions for the scenario. -/
def scenarioDefs : SdkDefinitions :=
  { queries := [issueChainNode], mutations := [], subscriptions := [] }

/-! ## Helper lemmas: validation -/

theorem documentFileInvalid_false_iff (v : ConfigValue) :
    documentFileInvalid v = false ↔ ∃ s, v = .str s ∧ s ≠ "" := by
  cases v with
  | str s =>
    simp [documentFileInvalid, isTruthy, isStringValue]
    rw [Bool.eq_false_iff]
    exact not_congr (String.isEmpty_iff s)
  | absent => simp [documentFileInvalid, isTruthy, isStringValue]
  | nonStr t => simp [documentFileInvalid, isTruthy, isStringValue]

/-- C7: `validate` fails exactly when the output file's extension is not
`.ts` or `documentFile` is missing, empty, or not a string; a bad extension
is reported with the message naming the output file, a bad `documentFile`
with the message naming `documentFile`, and when both conditions hold
`validate` returns without error. -/
theorem validate_spec (schema : GraphQLSchemaRepr) (documents : List OperationDoc)
    (config : RawSdkPluginConfig) (outputFile : String) :
    (validate schema documents config outputFile = .ok () ↔
      extname outputFile = ".ts" ∧ ∃ s, config.documentFile = .str s ∧ s ≠ "") ∧
    (extname outputFile ≠ ".ts" →
      validate schema documents config outputFile = .error (extMessage outputFile)) ∧
    (extname outputFile = ".ts" → (¬ ∃ s, config.documentFile = .str s ∧ s ≠ "") →
      validate schema documents config outputFile = .error documentFileMessage) := by
  by_cases hext : extname outputFile = ".ts"
  · by_cases hdf : documentFileInvalid config.documentFile = true
    · have hns : ¬ ∃ s, config.documentFile = .str s ∧ s ≠ "" := by
        rw [← documentFileInvalid_false_iff]
        simp [hdf]
      refine ⟨?_, fun h => absurd hext h, fun _ _ => by simp [validate, hext, hdf]⟩
      simp [validate, hext, hdf]
      intro s hs
      by_contra hne
      exact hns ⟨s, hs, hne⟩
    · have hs : ∃ s, config.documentFile = .str s ∧ s ≠ "" := by
        rw [← documentFileInvalid_false_iff]
        simp at hdf
        exact hdf
      refine ⟨?_, fun h => absurd hext h, fun _ hn => absurd hs hn⟩
      simp [validate, hext, hdf, hs]
  · refine ⟨?_, fun _ => by simp [validate, hext], fun h => absurd h hext⟩
    simp [validate, hext]

/-- Witness for C7: at a `.ts` output file and a non-empty string
`documentFile`, `validate` accepts. -/
theorem validate_spec_witness :
    validate { sdl := "" } [] { documentFile := .str "documents", documentMode := .string }
      "sdk.ts" = .ok () :=
  (validate_spec { sdl := "" } []
      { documentFile := .str "documents", documentMode := .string } "sdk.ts").1.mpr
    ⟨by decide, "documents", rfl, by decide⟩

/-- C10: the outcome of `validate` is independent of the schema and the
document list — it inspects only the output file extension and
`config.documentFile`. -/
theorem validate_independent_of_schema_documents (s1 s2 : GraphQLSchemaRepr)
    (d1 d2 : List OperationDoc) (config : RawSdkPluginConfig) (outputFile : String) :
    validate s1 d1 config outputFile = validate s2 d2 config outputFile := rfl

/-! ## PluginContext fragment registry -/

/-- C2 counterexample: at a concrete input containing one fragment
definition, the context the plugin shares downstream does not hold the
fragment registry populated from the input — the plugin overrides the
registry with the empty list (line 32 of `index.ts`). -/
theorem fragments_not_populated_counterexample :
    (buildPluginContext { documentFile := .str "documents", documentMode := .string }
        { types := [], fragmentDefs := [{ name := "IssueFragment", selections := ["id"] }] }).fragments
      ≠ ({ types := [], fragmentDefs := [{ name := "IssueFragment", selections := ["id"] }] } :
          SchemaAst).fragmentDefs := by
  decide

/-- C2 (amended): for every schema AST and configuration, the context the
plugin builds and shares with all downstream stages keeps the visitor's type
lookup but carries a fragment registry overridden with the empty list,
regardless of the fragments present in the input. -/
theorem pluginContext_fragments_override (config : RawSdkPluginConfig) (ast : SchemaAst) :
    (buildPluginContext config ast).fragments = [] ∧
    (buildPluginContext config ast).typeLookup = (contextVisitorContext config ast).typeLookup :=
  ⟨rfl, rfl⟩

/-! ## Requester contract and prepend lines -/

/-- C8: the `DocumentNode` import is prepended exactly when the document mode
is not the string mode, the eslint-disable line and the `ResultOf` import are
prepended for every configuration, and the requester contract has exactly two
variants — selected by the document mode — differing only in the static type
of the accepted document. -/
theorem requester_contract_variants (config : RawSdkPluginConfig) :
    (documentNodeImportLine ∈ pluginPrepend config ↔ config.documentMode ≠ DocumentMode.string) ∧
    eslintLine ∈ pluginPrepend config ∧
    resultOfImportLine ∈ pluginPrepend config ∧
    (requesterDocType config = "string" ∨ requesterDocType config = "DocumentNode") ∧
    (requesterDocType config = "string" ↔ config.documentMode = DocumentMode.string) ∧
    (∀ config2 : RawSdkPluginConfig, requesterDocType config = requesterDocType config2 →
      printRequesterType config = printRequesterType config2) := by
  refine ⟨?_, ?_, ?_, ?_, ?_, ?_⟩
  · by_cases h : config.documentMode = DocumentMode.string
    · simp [pluginPrepend, h, List.filterMap]
      decide
    · simp [pluginPrepend, h, List.filterMap]
  · by_cases h : config.documentMode = DocumentMode.string
    · simp [pluginPrepend, h, List.filterMap]
    · simp [pluginPrepend, h, List.filterMap]
  · by_cases h : config.documentMode = DocumentMode.string
    · simp [pluginPrepend, h, List.filterMap]
    · simp [pluginPrepend, h, List.filterMap]
  · by_cases h : config.documentMode = DocumentMode.string
    · simp [requesterDocType, h]
    · simp [requesterDocType, h]
  · by_cases h : config.documentMode = DocumentMode.string
    · simp [requesterDocType, h]
    · simp [requesterDocType, h]
  · intro config2 h2
    simp [printRequesterType, h2]

/-- Witness for C8: in typed-document-node mode the `DocumentNode` import is
prepended. -/
theorem requester_contract_variants_witness :
    documentNodeImportLine ∈
      pluginPrepend { documentFile := .str "documents", documentMode := .documentNode } :=
  (requester_contract_variants
      { documentFile := .str "documents", documentMode := .documentNode }).1.mpr (by decide)

/-! ## Argument elision -/

theorem elideNode_op (models : List SdkModel) (fuel : Nat) (inherited : List FieldSel)
    (d : SdkDefinition) : (elideNode models fuel inherited d).op = d.op := by
  cases fuel <;> rfl

theorem elideNode_idem (models : List SdkModel) :
    ∀ (fuel : Nat) (inherited : List FieldSel) (d : SdkDefinition),
      elideNode models fuel inherited (elideNode models fuel inherited d)
        = elideNode models fuel inherited d := by
  intro fuel
  induction fuel with
  | zero => intro inh d; rfl
  | succ n ih =>
    intro inh d
    cases d with
    | mk op cn p ra ch =>
      simp only [elideNode, List.map_map]
      have hfun :
          elideNode models n (inh ++ modelFields models op.resultModel) ∘
            elideNode models n (inh ++ modelFields models op.resultModel)
          = elideNode models n (inh ++ modelFields models op.resultModel) :=
        funext fun c => ih _ c
      rw [hfun]

/-- C9: argument elision is idempotent — recomputing the Step 4 elision on an
already-elided chain forest yields exactly the same minimal argument list at
every node. -/
theorem elide_idempotent (models : List SdkModel) (fuel : Nat) (inherited : List FieldSel)
    (forest : List SdkDefinition) :
    elideForest models fuel inherited (elideForest models fuel inherited forest)
      = elideForest models fuel inherited forest := by
  unfold elideForest
  rw [List.map_map]
  have hfun :
      elideNode models fuel inherited ∘ elideNode models fuel inherited
        = elideNode models fuel inherited :=
    funext fun d => elideNode_idem models fuel inherited d
  rw [hfun]

/-! ## All-or-nothing plugin run -/

/-- C6: the plugin run is all-or-nothing — when any stage fails the run
propagates that single error and produces no output, and a successful run
returns the fully assembled output built from every stage's result. -/
theorem runPlugin_all_or_nothing {E Schema Ast Ctx Models Docs Defs : Type}
    (parseSchemaAst : Schema → Except E Ast)
    (buildContext : Ast → Except E Ctx)
    (extractModels : Ctx → Ast → Except E Models)
    (resolveDefinitions : Ctx → Docs → Models → Except E Defs)
    (printModels : Ctx → Models → Defs → Except E String)
    (printClasses : Ctx → Models → Defs → Except E String)
    (schema : Schema) (documents : Docs) (config : RawSdkPluginConfig) :
    (∀ out, runPlugin parseSchemaAst buildContext extractModels resolveDefinitions
        printModels printClasses schema documents config = .ok out →
      ∃ ast ctx models defs pm po,
        parseSchemaAst schema = .ok ast ∧ buildContext ast = .ok ctx ∧
        extractModels ctx ast = .ok models ∧
        resolveDefinitions ctx documents models = .ok defs ∧
        printModels ctx models defs = .ok pm ∧ printClasses ctx models defs = .ok po ∧
        out = { prepend := pluginPrepend config,
                content := assembleContent config pm po }) ∧
    (∀ e, runPlugin parseSchemaAst buildContext extractModels resolveDefinitions
        printModels printClasses schema documents config = .error e →
      parseSchemaAst schema = .error e ∨
      ∃ ast, parseSchemaAst schema = .ok ast ∧
        (buildContext ast = .error e ∨
         ∃ ctx, buildContext ast = .ok ctx ∧
           (extractModels ctx ast = .error e ∨
            ∃ models, extractModels ctx ast = .ok models ∧
              (resolveDefinitions ctx documents models = .error e ∨
               ∃ defs, resolveDefinitions ctx documents models = .ok defs ∧
                 (printModels ctx models defs = .error e ∨
                  ∃ pm, printModels ctx models defs = .ok pm ∧
                    printClasses ctx models defs = .error e))))) := by
  cases h1 : parseSchemaAst schema with
  | error e1 =>
    refine ⟨fun out hout => ?_, fun e he => ?_⟩
    · simp [runPlugin, tryCatchRethrow, h1, Except.instMonad, Except.bind] at hout
    · simp [runPlugin, tryCatchRethrow, h1, Except.instMonad, Except.bind] at he
      subst he
      exact Or.inl rfl
  | ok ast =>
    cases h2 : buildContext ast with
    | error e2 =>
      refine ⟨fun out hout => ?_, fun e he => ?_⟩
      · simp [runPlugin, tryCatchRethrow, h1, h2, Except.instMonad, Except.bind] at hout
      · simp [runPlugin, tryCatchRethrow, h1, h2, Except.instMonad, Except.bind] at he
        subst he
        exact Or.inr ⟨ast, rfl, Or.inl h2⟩
    | ok ctx =>
      cases h3 : extractModels ctx ast with
      | error e3 =>
        refine ⟨fun out hout => ?_, fun e he => ?_⟩
        · simp [runPlugin, tryCatchRethrow, h1, h2, h3, Except.instMonad, Except.bind] at hout
        · simp [runPlugin, tryCatchRethrow, h1, h2, h3, Except.instMonad, Except.bind] at he
          subst he
          exact Or.inr ⟨ast, rfl, Or.inr ⟨ctx, h2, Or.inl h3⟩⟩
      | ok models =>
        cases h4 : resolveDefinitions ctx documents models with
        | error e4 =>
          refine ⟨fun out hout => ?_, fun e he => ?_⟩
          · simp [runPlugin, tryCatchRethrow, h1, h2, h3, h4,
              Except.instMonad, Except.bind] at hout
          · simp [runPlugin, tryCatchRethrow, h1, h2, h3, h4,
              Except.instMonad, Except.bind] at he
            subst he
            exact Or.inr ⟨ast, rfl, Or.inr ⟨ctx, h2, Or.inr ⟨models, h3, Or.inl h4⟩⟩⟩
        | ok defs =>
          cases h5 : printModels ctx models defs with
          | error e5 =>
            refine ⟨fun out hout => ?_, fun e he => ?_⟩
            · simp [runPlugin, tryCatchRethrow, h1, h2, h3, h4, h5,
                Except.instMonad, Except.bind] at hout
            · simp [runPlugin, tryCatchRethrow, h1, h2, h3, h4, h5,
                Except.instMonad, Except.bind] at he
              subst he
              exact Or.inr ⟨ast, rfl, Or.inr ⟨ctx, h2,
                Or.inr ⟨models, h3, Or.inr ⟨defs, h4, Or.inl h5⟩⟩⟩⟩
          | ok pm =>
            cases h6 : printClasses ctx models defs with
            | error e6 =>
              refine ⟨fun out hout => ?_, fun e he => ?_⟩
              · simp [runPlugin, tryCatchRethrow, h1, h2, h3, h4, h5, h6,
                  Except.instMonad, Except.bind, Except.map, Except.pure] at hout
              · simp [runPlugin, tryCatchRethrow, h1, h2, h3, h4, h5, h6,
                  Except.instMonad, Except.bind, Except.map, Except.pure] at he
                subst he
                exact Or.inr ⟨ast, rfl, Or.inr ⟨ctx, h2,
                  Or.inr ⟨models, h3, Or.inr ⟨defs, h4,
                    Or.inr ⟨pm, h5, h6⟩⟩⟩⟩⟩
            | ok po =>
              refine ⟨fun out hout => ?_, fun e he => ?_⟩
              · simp [runPlugin, tryCatchRethrow, h1, h2, h3, h4, h5, h6,
                  Except.instMonad, Except.bind, Except.map, Except.pure] at hout
                exact ⟨ast, ctx, models, defs, pm, po, rfl, h2, h3, h4, h5, h6, hout.symm⟩
              · simp [runPlugin, tryCatchRethrow, h1, h2, h3, h4, h5, h6,
                  Except.instMonad, Except.bind, Except.map, Except.pure] at he

/-- Witness for C6: with every stage succeeding, the run returns the fully
assembled output. -/
theorem runPlugin_all_or_nothing_witness :
    ∃ (ast ctx models defs : Unit) (pm po : String),
      (.ok () : Except Unit Unit) = .ok ast ∧
      (.ok () : Except Unit Unit) = .ok ctx ∧
      (.ok () : Except Unit Unit) = .ok models ∧
      (.ok () : Except Unit Unit) = .ok defs ∧
      (.ok "m" : Except Unit String) = .ok pm ∧
      (.ok "o" : Except Unit String) = .ok po ∧
      ({ prepend := pluginPrepend { documentFile := .str "documents", documentMode := .string },
         content := assembleContent { documentFile := .str "documents", documentMode := .string }
           "m" "o" } : PluginOutput)
        = { prepend := pluginPrepend { documentFile := .str "documents", documentMode := .string },
            content := assembleContent { documentFile := .str "documents", documentMode := .string }
              pm po } :=
  (runPlugin_all_or_nothing
      (fun (_ : Unit) => (.ok () : Except Unit Unit))
      (fun (_ : Unit) => (.ok () : Except Unit Unit))
      (fun (_ _ : Unit) => (.ok () : Except Unit Unit))
      (fun (_ _ _ : Unit) => (.ok () : Except Unit Unit))
      (fun (_ _ _ : Unit) => (.ok "m" : Except Unit String))
      (fun (_ _ _ : Unit) => (.ok "o" : Except Unit String))
      () () { documentFile := .str "documents", documentMode := .string }).1
    _ rfl

/-! ## Tree reachability lemmas -/

theorem sizeOf_lt_of_mem_children {c d : SdkDefinition} (h : c ∈ d.children) :
    sizeOf c < sizeOf d := by
  cases d with
  | mk op cn p ra ch =>
    have h1 : sizeOf c < sizeOf ch := List.sizeOf_lt_of_mem h
    simp only [SdkDefinition.mk.sizeOf_spec]
    omega

theorem Descendant.sizeOf_lt {x d : SdkDefinition} (h : Descendant x d) :
    sizeOf x < sizeOf d := by
  induction h with
  | of_child hc => exact sizeOf_lt_of_mem_children hc
  | of_trans _ hc ih => exact lt_trans ih (sizeOf_lt_of_mem_children hc)

theorem not_descendant_self (d : SdkDefinition) : ¬ Descendant d d :=
  fun h => absurd h.sizeOf_lt (lt_irrefl _)

theorem descendant_via_children {x d : SdkDefinition} (h : Descendant x d) :
    ∃ c ∈ d.children, x = c ∨ Descendant x c := by
  cases h with
  | of_child hc => exact ⟨x, hc, Or.inl rfl⟩
  | of_trans hxc hc => exact ⟨_, hc, Or.inr hxc⟩

theorem descendant_of_reach_child {y c d : SdkDefinition} (h : Reach y c)
    (hc : c ∈ d.children) : Descendant y d := by
  cases h with
  | inl he => exact he ▸ Descendant.of_child hc
  | inr hd => exact Descendant.of_trans hd hc

/-- C4: on every input on which `getSdkDefinitions` succeeds, the resulting
chain tree is acyclic — no node of any forest is its own strict descendant,
at any depth. -/
theorem chain_tree_acyclic (limit : Nat) (docs : List OperationDoc)
    (models : List SdkModel) (defs : SdkDefinitions)
    (_h : getSdkDefinitions limit docs models = .ok defs) :
    ∀ f ∈ defs.forests, ∀ d, InForest d f → ¬ Descendant d d := by
  intro f _ d _ hdd
  exact not_descendant_self d hdd

/-- Witness for C4: the resolved scenario tree contains no node that is its
own descendant. -/
theorem chain_tree_acyclic_witness : ¬ Descendant issueChainNode issueChainNode :=
  chain_tree_acyclic 3 [issueOp, commentsOp] [issueModel] scenarioDefs rfl
    [issueChainNode] (by simp [scenarioDefs, SdkDefinitions.forests])
    issueChainNode ⟨issueChainNode, by simp, Or.inl rfl⟩

/-! ## Name collision resolution lemmas -/

theorem string_append_empty (s : String) : s ++ "" = s := by
  cases s with
  | mk data =>
    show String.mk (data ++ []) = String.mk data
    rw [List.append_nil]

theorem candidates_ne_nil (base : String) (limit : Nat) : candidates base limit ≠ [] := by
  simp [candidates]

theorem pickName_fresh (used : List String) (limit : Nat) (base : String) (h : base ∉ used) :
    pickName used limit base = some base := by
  unfold pickName candidates
  simp only [List.map_cons, string_append_empty, List.find?]
  simp [h]

theorem pickName_some {used : List String} {limit : Nat} {base n : String}
    (h : pickName used limit base = some n) :
    n ∉ used ∧ ∃ s, n = base ++ s := by
  have hp := List.find?_some h
  have hm := List.mem_of_find?_eq_some h
  refine ⟨of_decide_eq_true hp, ?_⟩
  unfold candidates at hm
  rcases List.mem_map.mp hm with ⟨s, _, rfl⟩
  exact ⟨s, rfl⟩

theorem pickName_none {used : List String} {limit : Nat} {base : String}
    (h : pickName used limit base = none) :
    ∀ nm ∈ candidates base limit, nm ∈ used := by
  intro nm hnm
  have := List.find?_eq_none.mp h nm hnm
  simpa using this

theorem resolveNames_length (limit : Nat) :
    ∀ (names used : List String), ((resolveNames limit used names).1).length = names.length := by
  intro names
  induction names with
  | nil => intro used; rfl
  | cons base rest ih =>
    intro used
    unfold resolveNames
    cases h : pickName used limit base with
    | some n => simp [ih]
    | none => simp [ih]

theorem resolveNames_nodup (limit : Nat) :
    ∀ (names used : List String), (resolveNames limit used names).2 = [] →
      ((resolveNames limit used names).1).Nodup ∧
        ∀ n ∈ (resolveNames limit used names).1, n ∉ used := by
  intro names
  induction names with
  | nil => intro used _; exact ⟨List.nodup_nil, by simp [resolveNames]⟩
  | cons base rest ih =>
    intro used hconf
    unfold resolveNames at hconf ⊢
    cases h : pickName used limit base with
    | some n =>
      rw [h] at hconf
      simp only at hconf
      have hih := ih (n :: used) hconf
      have hn := (pickName_some h).1
      constructor
      · simp only [List.nodup_cons]
        refine ⟨fun hmem => ?_, hih.1⟩
        have := hih.2 n hmem
        simp at this
      · intro x hx
        simp only [List.mem_cons] at hx
        cases hx with
        | inl he => exact he ▸ hn
        | inr hmem =>
          have := hih.2 x hmem
          intro hxu
          exact this (List.mem_cons_of_mem _ hxu)
    | none =>
      rw [h] at hconf
      simp at hconf


theorem resolveNames_suffix (limit : Nat) :
    ∀ (names used : List String),
      List.Forall₂ (fun b n => ∃ s, n = b ++ s) names (resolveNames limit used names).1 := by
  intro names
  induction names with
  | nil => intro used; exact List.Forall₂.nil
  | cons base rest ih =>
    intro used
    unfold resolveNames
    cases h : pickName used limit base with
    | some n =>
      simp only
      exact List.Forall₂.cons (pickName_some h).2 (ih (n :: used))
    | none =>
      simp only
      exact List.Forall₂.cons ⟨"", (string_append_empty base).symm⟩ (ih (base :: used))

theorem resolveNames_conflicts (limit : Nat) :
    ∀ (names used : List String), ∀ c ∈ (resolveNames limit used names).2,
      c.clashes = candidates c.op limit ∧ c.clashes ≠ [] ∧
        ∀ nm ∈ c.clashes, nm ∈ used ∨ nm ∈ (resolveNames limit used names).1 := by
  intro names
  induction names with
  | nil => intro used c hc; simp [resolveNames] at hc
  | cons base rest ih =>
    intro used c hc
    unfold resolveNames at hc ⊢
    cases h : pickName used limit base with
    | some n =>
      rw [h] at hc
      simp only at hc
      rcases ih (n :: used) c hc with ⟨h1, h2, h3⟩
      refine ⟨h1, h2, fun nm hnm => ?_⟩
      rcases h3 nm hnm with hu | ho
      · rcases List.mem_cons.mp hu with he | hu2
        · refine Or.inr ?_
          simp only
          rw [he]
          exact List.mem_cons_self _ _
        · exact Or.inl hu2
      · refine Or.inr ?_
        simp only
        exact List.mem_cons_of_mem _ ho
    | none =>
      rw [h] at hc
      simp only [List.mem_cons] at hc
      cases hc with
      | inl he =>
        subst he
        refine ⟨rfl, candidates_ne_nil base limit, fun nm hnm => Or.inl ?_⟩
        exact pickName_none h nm hnm
      | inr hmem =>
        rcases ih (base :: used) c hmem with ⟨h1, h2, h3⟩
        refine ⟨h1, h2, fun nm hnm => ?_⟩
        rcases h3 nm hnm with hu | ho
        · rcases List.mem_cons.mp hu with he | hu2
          · refine Or.inr ?_
            simp only
            rw [he]
            exact List.mem_cons_self _ _
          · exact Or.inl hu2
        · refine Or.inr ?_
          simp only
          exact List.mem_cons_of_mem _ ho

theorem renameChildren_conflicts (limit : Nat) :
    ∀ (fuel : Nat) (ds : List SdkDefinition), ∀ c ∈ (renameChildren limit fuel ds).2,
      c.clashes = candidates c.op limit ∧ c.clashes ≠ [] := by
  intro fuel
  induction fuel with
  | zero => intro ds c hc; simp [renameChildren] at hc
  | succ n ih =>
    intro ds c hc
    unfold renameChildren at hc
    rcases List.mem_append.mp hc with hres | hfl
    · rcases resolveNames_conflicts limit (ds.map (fun d => d.op.name)) [] c hres with ⟨h1, h2, _⟩
      exact ⟨h1, h2⟩
    · rcases List.mem_flatten.mp hfl with ⟨l, hl, hcl⟩
      rcases List.mem_map.mp hl with ⟨p, _, rfl⟩
      exact ih p.1.children c hcl

theorem resolveKind_conflicts (limit : Nat) (models : List SdkModel)
    (docs : List OperationDoc) (k : OpKind) :
    ∀ c ∈ (resolveKind limit models docs k).2,
      c.clashes = candidates c.op limit ∧ c.clashes ≠ [] := by
  intro c hc
  exact renameChildren_conflicts limit _ _ c hc

/-- C5: within a sibling list a fresh base name is kept, resolution drops no
operation, a conflict-free resolution yields pairwise-distinct call names,
every assigned name extends its operation's base name with a disambiguating
suffix, a recorded conflict names an operation whose every candidate name was
already taken by an earlier sibling, and `getSdkDefinitions` fails exactly by
reporting such non-empty conflict information — never by silently
overwriting. -/
theorem name_collision_resolution (limit : Nat) :
    (∀ (used : List String) (base : String), base ∉ used →
      pickName used limit base = some base) ∧
    (∀ (used names : List String),
      ((resolveNames limit used names).1).length = names.length) ∧
    (∀ (used names : List String), (resolveNames limit used names).2 = [] →
      ((resolveNames limit used names).1).Nodup ∧
        ∀ n ∈ (resolveNames limit used names).1, n ∉ used) ∧
    (∀ (used names : List String),
      List.Forall₂ (fun b n => ∃ s, n = b ++ s) names (resolveNames limit used names).1) ∧
    (∀ (used names : List String), ∀ c ∈ (resolveNames limit used names).2,
      c.clashes = candidates c.op limit ∧ c.clashes ≠ [] ∧
        ∀ nm ∈ c.clashes, nm ∈ used ∨ nm ∈ (resolveNames limit used names).1) ∧
    (∀ (docs : List OperationDoc) (models : List SdkModel) (e : List ConflictInfo),
      getSdkDefinitions limit docs models = .error e →
      e ≠ [] ∧ ∀ c ∈ e, c.clashes = candidates c.op limit ∧ c.clashes ≠ []) := by
  refine ⟨fun used base h => pickName_fresh used limit base h,
    fun used names => resolveNames_length limit names used,
    fun used names h => resolveNames_nodup limit names used h,
    fun used names => resolveNames_suffix limit names used,
    fun used names => resolveNames_conflicts limit names used,
    fun docs models e he => ?_⟩
  unfold getSdkDefinitions at he
  split at he
  · exact absurd he (by simp)
  · rename_i hne
    have hee : (resolveKind limit models docs .query).2 ++ (resolveKind limit models docs .mutation).2
        ++ (resolveKind limit models docs .subscription).2 = e := Except.error.inj he
    constructor
    · intro hnil
      rw [hnil] at hee
      exact hne (by simp [List.isEmpty_iff, hee])
    · intro c hcm
      rw [← hee] at hcm
      rcases List.mem_append.mp hcm with hqm | hs
      · rcases List.mem_append.mp hqm with hq | hm
        · exact resolveKind_conflicts limit models docs .query c hq
        · exact resolveKind_conflicts limit models docs .mutation c hm
      · exact resolveKind_conflicts limit models docs .subscription c hs

/-- Witness for C5: a base name not yet taken among its siblings is kept
unchanged. -/
theorem name_collision_resolution_witness :
    pickName ["issue"] 3 "issueComments" = some "issueComments" :=
  (name_collision_resolution 3).1 ["issue"] "issueComments" (by decide)

/-! ## Chaining classification lemmas -/

theorem foldl_pickMoreSpecific_mem (op : OperationDoc) :
    ∀ (l : List SdkModel) (acc : Option SdkModel) (m : SdkModel),
      l.foldl (pickMoreSpecific op) acc = some m → acc = some m ∨ m ∈ l := by
  intro l
  induction l with
  | nil => intro acc m h; exact Or.inl h
  | cons x xs ih =>
    intro acc m h
    rcases ih (pickMoreSpecific op acc x) m h with hacc | hmem
    · cases acc with
      | none =>
        have hxm : x = m := by simpa [pickMoreSpecific] using hacc
        exact Or.inr (hxm ▸ List.mem_cons_self x xs)
      | some b =>
        by_cases hgt : matchCount op x > matchCount op b
        · have hxm : x = m := by simpa [pickMoreSpecific, hgt] using hacc
          exact Or.inr (hxm ▸ List.mem_cons_self x xs)
        · have hbm : b = m := by simpa [pickMoreSpecific, hgt] using hacc
          exact Or.inl (by rw [hbm])
    · exact Or.inr (List.mem_cons_of_mem x hmem)

theorem bestParent_some {models : List SdkModel} {docs : List OperationDoc}
    {op : OperationDoc} {m : SdkModel} (h : bestParent models docs op = some m) :
    chainsUnder op m = true ∧ ∃ p ∈ docs, m = resultModelOf models p := by
  unfold bestParent at h
  rcases foldl_pickMoreSpecific_mem op _ none m h with hacc | hmem
  · exact absurd hacc (by simp)
  · have h1 := List.mem_filter.mp hmem
    refine ⟨h1.2, ?_⟩
    rcases List.mem_map.mp h1.1 with ⟨p, hp, rfl⟩
    exact ⟨p, (List.mem_filter.mp hp).1, rfl⟩

theorem bool_and_true {a b : Bool} (h : (a && b) = true) : a = true ∧ b = true := by
  cases a <;> cases b <;> simp_all

theorem chainsUnder_required {op : OperationDoc} {m : SdkModel} (h : chainsUnder op m = true) :
    ∀ v ∈ op.vars, v.required = true →
      ∃ fld ∈ m.fields, fld.name = v.name ∧ fld.tpe = v.tpe := by
  intro v hv hreq
  unfold chainsUnder at h
  rcases bool_and_true h with ⟨_, hall⟩
  have hx := (List.all_eq_true.mp hall) v hv
  rw [hreq] at hx
  simp only [Bool.not_true, Bool.false_or] at hx
  unfold modelSatisfies at hx
  rcases List.any_eq_true.mp hx with ⟨fld, hfld, hmatch⟩
  unfold fieldMatches at hmatch
  rcases bool_and_true hmatch with ⟨hn, ht⟩
  exact ⟨fld, hfld, by simpa using hn, by simpa using ht⟩

theorem bestParentName_chains {models : List SdkModel} {docs : List OperationDoc}
    {op : OperationDoc} {n : String} (h : bestParentName models docs op = some n) :
    chainsUnder op { name := n, fields := modelFields models n } = true := by
  unfold bestParentName at h
  rcases Option.map_eq_some'.mp h with ⟨m, hm, rfl⟩
  rcases bestParent_some hm with ⟨hc, p, _, rfl⟩
  simpa [resultModelOf] using hc

theorem buildChildren_mem_bestParent {models : List SdkModel} {docs : List OperationDoc}
    {fuel : Nat} {pm : String} {path : List String} {pending : List OperationDoc}
    {c : SdkDefinition} (hc : c ∈ buildChildren models docs fuel pm path pending) :
    bestParentName models docs c.op = some pm := by
  cases fuel with
  | zero => simp [buildChildren] at hc
  | succ n =>
    unfold buildChildren at hc
    rcases List.mem_map.mp hc with ⟨op, hop, rfl⟩
    have hpred := (List.mem_filter.mp hop).2
    simpa using hpred

theorem buildChildren_reach_childOk (models : List SdkModel) (docs : List OperationDoc) :
    ∀ (fuel : Nat) (pm : String) (path : List String) (pending : List OperationDoc)
      (t : SdkDefinition), t ∈ buildChildren models docs fuel pm path pending →
      ∀ x, Reach x t → ChildOk models x := by
  intro fuel
  induction fuel with
  | zero => intro pm path pending t ht; simp [buildChildren] at ht
  | succ n ih =>
    intro pm path pending t ht x hx
    unfold buildChildren at ht
    rcases List.mem_map.mp ht with ⟨op, _, rfl⟩
    cases hx with
    | inl he =>
      subst he
      intro c hc v hv hreq
      have hbp := buildChildren_mem_bestParent hc
      have hcu := bestParentName_chains hbp
      simpa using chainsUnder_required hcu v hv hreq
    | inr hd =>
      rcases descendant_via_children hd with ⟨c, hcmem, hcx⟩
      exact ih _ _ _ c hcmem x hcx

theorem assembleForest_reach_childOk (models : List SdkModel) (docs : List OperationDoc) :
    ∀ t ∈ assembleForest models docs, ∀ x, Reach x t → ChildOk models x := by
  intro t ht x hx
  unfold assembleForest at ht
  rcases List.mem_map.mp ht with ⟨op, _, rfl⟩
  cases hx with
  | inl he =>
    subst he
    intro c hc v hv hreq
    have hbp := buildChildren_mem_bestParent hc
    have hcu := bestParentName_chains hbp
    simpa using chainsUnder_required hcu v hv hreq
  | inr hd =>
    rcases descendant_via_children hd with ⟨c, hcmem, hcx⟩
    exact buildChildren_reach_childOk models docs _ _ _ _ c hcmem x hcx

/-! ## Transformation trace lemmas -/

theorem elideNode_children (models : List SdkModel) (n : Nat) (inh : List FieldSel)
    (t : SdkDefinition) :
    (elideNode models (n + 1) inh t).children
      = t.children.map (elideNode models n (inh ++ modelFields models t.op.resultModel)) := by
  cases t with
  | mk op cn p ra ch => rfl

theorem elideNode_trace (models : List SdkModel) :
    ∀ (fuel : Nat) (inh : List FieldSel) (t x : SdkDefinition),
      Reach x (elideNode models fuel inh t) →
      ∃ y, Reach y t ∧ x.op = y.op ∧
        x.children.map (fun c => c.op) = y.children.map (fun c => c.op) := by
  intro fuel
  induction fuel with
  | zero => intro inh t x hx; exact ⟨x, hx, rfl, rfl⟩
  | succ n ih =>
    intro inh t x hx
    cases hx with
    | inl he =>
      subst he
      refine ⟨t, Or.inl rfl, elideNode_op models (n + 1) inh t, ?_⟩
      rw [elideNode_children, List.map_map]
      exact List.map_congr_left (fun c _ => elideNode_op models n _ c)
    | inr hd =>
      rcases descendant_via_children hd with ⟨c', hc', hcx⟩
      rw [elideNode_children] at hc'
      rcases List.mem_map.mp hc' with ⟨c, hc, rfl⟩
      rcases ih _ c x hcx with ⟨y, hy, hop, hchld⟩
      exact ⟨y, Or.inr (descendant_of_reach_child hy hc), hop, hchld⟩

theorem elideForest_map_op (models : List SdkModel) (fuel : Nat) (inh : List FieldSel)
    (forest : List SdkDefinition) :
    (elideForest models fuel inh forest).map (fun d => d.op) = forest.map (fun d => d.op) := by
  unfold elideForest
  rw [List.map_map]
  exact List.map_congr_left (fun d _ => elideNode_op models fuel inh d)

theorem renameChildren_map_op (limit : Nat) :
    ∀ (fuel : Nat) (ds : List SdkDefinition),
      ((renameChildren limit fuel ds).1).map (fun d => d.op) = ds.map (fun d => d.op) := by
  intro fuel
  cases fuel with
  | zero => intro ds; rfl
  | succ n =>
    intro ds
    unfold renameChildren
    rw [List.map_map]
    have hlen : ds.length ≤ ((resolveNames limit [] (ds.map (fun d => d.op.name))).1).length := by
      rw [resolveNames_length]
      simp
    calc ((ds.zip (resolveNames limit [] (ds.map (fun d => d.op.name))).1).map
            ((fun d => d.op) ∘ fun p =>
              { p.1 with callName := p.2, children := (renameChildren limit n p.1.children).1 }))
        = ((ds.zip (resolveNames limit [] (ds.map (fun d => d.op.name))).1).map
            (Prod.fst)).map (fun d => d.op) := by
          rw [List.map_map]
          rfl
      _ = ds.map (fun d => d.op) := by
          rw [List.map_fst_zip _ _ hlen]

theorem renameChildren_trace (limit : Nat) :
    ∀ (fuel : Nat) (ds : List SdkDefinition) (t' x : SdkDefinition),
      t' ∈ (renameChildren limit fuel ds).1 → Reach x t' →
      ∃ t ∈ ds, ∃ y, Reach y t ∧ x.op = y.op ∧
        x.children.map (fun c => c.op) = y.children.map (fun c => c.op) := by
  intro fuel
  induction fuel with
  | zero =>
    intro ds t' x ht' hx
    exact ⟨t', ht', x, hx, rfl, rfl⟩
  | succ n ih =>
    intro ds t' x ht' hx
    unfold renameChildren at ht'
    rcases List.mem_map.mp ht' with ⟨p, hp, rfl⟩
    have hpd : p.1 ∈ ds := (List.of_mem_zip hp).1
    cases hx with
    | inl he =>
      subst he
      refine ⟨p.1, hpd, p.1, Or.inl rfl, rfl, ?_⟩
      exact renameChildren_map_op limit n p.1.children
    | inr hd =>
      rcases descendant_via_children hd with ⟨c', hc', hcx⟩
      rcases ih p.1.children c' x hc' hcx with ⟨t, ht, y, hy, hop, hch⟩
      exact ⟨p.1, hpd, y, Or.inr (descendant_of_reach_child hy ht), hop, hch⟩

theorem childOk_of_opEq {models : List SdkModel} {x y : SdkDefinition}
    (hop : x.op = y.op)
    (hch : x.children.map (fun c => c.op) = y.children.map (fun c => c.op))
    (h : ChildOk models y) : ChildOk models x := by
  intro c hc v hv hreq
  have hcop : c.op ∈ y.children.map (fun c => c.op) := by
    rw [← hch]
    exact List.mem_map_of_mem _ hc
  rcases List.mem_map.mp hcop with ⟨c', hc', hce⟩
  have hres := h c' hc' v (by rw [hce]; exact hv) hreq
  rw [hop]
  exact hres

theorem resolveKind_eq (limit : Nat) (models : List SdkModel) (docs : List OperationDoc)
    (k : OpKind) :
    resolveKind limit models docs k
      = renameChildren limit ((docs.filter (fun d => d.kind == k)).length + 1)
          (elideForest models ((docs.filter (fun d => d.kind == k)).length + 1) []
            (assembleForest models (docs.filter (fun d => d.kind == k)))) := rfl

theorem resolveKind_inForest_childOk (limit : Nat) (models : List SdkModel)
    (docs : List OperationDoc) (k : OpKind) :
    ∀ x, InForest x (resolveKind limit models docs k).1 → ChildOk models x := by
  intro x hx
  rcases hx with ⟨t', ht', hreach⟩
  rw [resolveKind_eq] at ht'
  rcases renameChildren_trace limit _ _ t' x ht' hreach with ⟨t1, ht1, y, hy, hop, hch⟩
  unfold elideForest at ht1
  rcases List.mem_map.mp ht1 with ⟨t0, ht0, rfl⟩
  rcases elideNode_trace models _ _ t0 y hy with ⟨z, hz, hop2, hch2⟩
  have hz_ok := assembleForest_reach_childOk models _ t0 ht0 z hz
  exact childOk_of_opEq (hop.trans hop2) (hch.trans hch2) hz_ok

theorem getSdkDefinitions_ok {limit : Nat} {docs : List OperationDoc}
    {models : List SdkModel} {defs : SdkDefinitions}
    (h : getSdkDefinitions limit docs models = .ok defs) :
    defs.queries = (resolveKind limit models docs .query).1 ∧
    defs.mutations = (resolveKind limit models docs .mutation).1 ∧
    defs.subscriptions = (resolveKind limit models docs .subscription).1 := by
  unfold getSdkDefinitions at h
  split at h
  · have he := Except.ok.inj h
    rw [← he]
    exact ⟨rfl, rfl, rfl⟩
  · exact absurd h (by simp)

theorem assembleForest_map_op (models : List SdkModel) (docs : List OperationDoc) :
    (assembleForest models docs).map (fun d => d.op)
      = docs.filter (fun o => (bestParent models docs o).isNone) := by
  unfold assembleForest
  rw [List.map_map]
  simp [Function.comp_def]

/-- C1: in every resolved forest, whenever a node has a child, every required
variable of the child operation appears — under the same name and type —
among the selected fields of the model named by the parent's result model;
and an operation that chains under no result model in its partition becomes a
standalone root. -/
theorem chain_child_condition (limit : Nat) (docs : List OperationDoc)
    (models : List SdkModel) (defs : SdkDefinitions)
    (h : getSdkDefinitions limit docs models = .ok defs) :
    (∀ f ∈ defs.forests, ∀ p, InForest p f → ChildOk models p) ∧
    (∀ op ∈ docs, (∀ p ∈ docs, chainsUnder op (resultModelOf models p) = false) →
      ∃ r ∈ defs.forestOf op.kind, r.op = op) := by
  rcases getSdkDefinitions_ok h with ⟨hq, hm, hs⟩
  constructor
  · intro f hf p hp
    simp only [SdkDefinitions.forests, List.mem_cons, List.not_mem_nil, or_false] at hf
    rcases hf with hfq | hfm | hfs
    · rw [hfq, hq] at hp
      exact resolveKind_inForest_childOk limit models docs .query p hp
    · rw [hfm, hm] at hp
      exact resolveKind_inForest_childOk limit models docs .mutation p hp
    · rw [hfs, hs] at hp
      exact resolveKind_inForest_childOk limit models docs .subscription p hp
  · intro op hop h2
    have hforest : defs.forestOf op.kind = (resolveKind limit models docs op.kind).1 := by
      cases hk : op.kind
      · rw [SdkDefinitions.forestOf, hq]
      · rw [SdkDefinitions.forestOf, hm]
      · rw [SdkDefinitions.forestOf, hs]
    rw [hforest, resolveKind_eq]
    have hopk : op ∈ docs.filter (fun d => d.kind == op.kind) :=
      List.mem_filter.mpr ⟨hop, by simp⟩
    have hbp : bestParent models (docs.filter (fun d => d.kind == op.kind)) op = none := by
      unfold bestParent
      have hfil :
          ((((docs.filter (fun d => d.kind == op.kind)).filter
              (fun p => !(p == op))).map (resultModelOf models)).filter
            (fun m => chainsUnder op m)) = [] := by
        rw [List.filter_eq_nil_iff]
        intro m hmem
        rcases List.mem_map.mp hmem with ⟨p, hp, rfl⟩
        have hpd : p ∈ docs :=
          (List.mem_filter.mp ((List.mem_filter.mp hp).1)).1
        simp [h2 p hpd]
      rw [hfil]
      rfl
    have hroot : op ∈ (docs.filter (fun d => d.kind == op.kind)).filter
        (fun o => (bestParent models (docs.filter (fun d => d.kind == op.kind)) o).isNone) :=
      List.mem_filter.mpr ⟨hopk, by simp [hbp]⟩
    have hops :
        ((renameChildren limit ((docs.filter (fun d => d.kind == op.kind)).length + 1)
            (elideForest models ((docs.filter (fun d => d.kind == op.kind)).length + 1) []
              (assembleForest models (docs.filter (fun d => d.kind == op.kind))))).1).map
            (fun d => d.op)
          = (docs.filter (fun d => d.kind == op.kind)).filter
              (fun o => (bestParent models (docs.filter (fun d => d.kind == op.kind)) o).isNone) := by
      rw [renameChildren_map_op, elideForest_map_op, assembleForest_map_op]
    have hmem : op ∈ ((renameChildren limit ((docs.filter (fun d => d.kind == op.kind)).length + 1)
        (elideForest models ((docs.filter (fun d => d.kind == op.kind)).length + 1) []
          (assembleForest models (docs.filter (fun d => d.kind == op.kind))))).1).map
        (fun d => d.op) := by
      rw [hops]
      exact hroot
    rcases List.mem_map.mp hmem with ⟨r, hr, hre⟩
    exact ⟨r, hr, hre⟩

/-- Witness for C1: in the resolved scenario, the chained `issueComments`
child finds its required `id: ID!` variable among the `Issue` model's
fields. -/
theorem chain_child_condition_witness :
    ∃ fld ∈ modelFields [issueModel] issueChainNode.op.resultModel,
      fld.name = idVar.name ∧ fld.tpe = idVar.tpe :=
  (chain_child_condition 3 [issueOp, commentsOp] [issueModel] scenarioDefs rfl).1
    [issueChainNode] (by simp [scenarioDefs, SdkDefinitions.forests])
    issueChainNode ⟨issueChainNode, by simp, Or.inl rfl⟩
    commentsChildNode (by simp [issueChainNode])
    idVar (by simp [commentsChildNode, commentsOp]) rfl

/-! ## Ordering lemmas -/

theorem buildChildren_map_op (models : List SdkModel) (docs : List OperationDoc)
    (fuel : Nat) (pm : String) (path : List String) (pending : List OperationDoc) :
    (buildChildren models docs (fuel + 1) pm path pending).map (fun d => d.op)
      = pending.filter (fun o => bestParentName models docs o == some pm) := by
  unfold buildChildren
  rw [List.map_map]
  simp [Function.comp_def]

theorem buildChildren_children_sublist (models : List SdkModel) (docs : List OperationDoc) :
    ∀ (fuel : Nat) (pm : String) (path : List String) (pending : List OperationDoc),
      pending.Sublist docs →
      ∀ t ∈ buildChildren models docs fuel pm path pending,
        ∀ x, Reach x t → (x.children.map (fun d => d.op)).Sublist docs := by
  intro fuel
  induction fuel with
  | zero => intro pm path pending _ t ht; simp [buildChildren] at ht
  | succ n ih =>
    intro pm path pending hsub t ht x hx
    unfold buildChildren at ht
    rcases List.mem_map.mp ht with ⟨op, _, rfl⟩
    have hrest : (pending.filter
        (fun o => !(bestParentName models docs o == some pm))).Sublist docs :=
      (List.filter_sublist _).trans hsub
    cases hx with
    | inl he =>
      subst he
      show ((buildChildren models docs n op.resultModel (path ++ [op.resultModel])
          (pending.filter (fun o => !(bestParentName models docs o == some pm)))).map
            (fun d => d.op)).Sublist docs
      cases n with
      | zero => simp [buildChildren]
      | succ m =>
        rw [buildChildren_map_op]
        exact (List.filter_sublist _).trans hrest
    | inr hd =>
      rcases descendant_via_children hd with ⟨c, hcmem, hcx⟩
      exact ih _ _ _ hrest c hcmem x hcx

theorem assembleForest_children_sublist (models : List SdkModel) (docs : List OperationDoc) :
    ∀ t ∈ assembleForest models docs, ∀ x, Reach x t →
      (x.children.map (fun d => d.op)).Sublist docs := by
  intro t ht x hx
  unfold assembleForest at ht
  rcases List.mem_map.mp ht with ⟨op, _, rfl⟩
  have hnon : (docs.filter (fun o => (bestParent models docs o).isSome)).Sublist docs :=
    List.filter_sublist _
  cases hx with
  | inl he =>
    subst he
    show ((buildChildren models docs (docs.length + 1) op.resultModel [op.resultModel]
        (docs.filter (fun o => (bestParent models docs o).isSome))).map
          (fun d => d.op)).Sublist docs
    rw [buildChildren_map_op]
    exact (List.filter_sublist _).trans hnon
  | inr hd =>
    rcases descendant_via_children hd with ⟨c, hcmem, hcx⟩
    exact buildChildren_children_sublist models docs _ _ _ _ hnon c hcmem x hcx

theorem resolveKind_inForest_children_sublist (limit : Nat) (models : List SdkModel)
    (docs : List OperationDoc) (k : OpKind) :
    ∀ x, InForest x (resolveKind limit models docs k).1 →
      (x.children.map (fun d => d.op)).Sublist docs := by
  intro x hx
  rcases hx with ⟨t', ht', hreach⟩
  rw [resolveKind_eq] at ht'
  rcases renameChildren_trace limit _ _ t' x ht' hreach with ⟨t1, ht1, y, hy, _, hch⟩
  unfold elideForest at ht1
  rcases List.mem_map.mp ht1 with ⟨t0, ht0, rfl⟩
  rcases elideNode_trace models _ _ t0 y hy with ⟨z, hz, _, hch2⟩
  rw [hch, hch2]
  have hsubz := assembleForest_children_sublist models _ t0 ht0 z hz
  exact hsubz.trans (List.filter_sublist _)

theorem resolveKind_map_op (limit : Nat) (models : List SdkModel)
    (docs : List OperationDoc) (k : OpKind) :
    ((resolveKind limit models docs k).1).map (fun d => d.op)
      = (docs.filter (fun d => d.kind == k)).filter
          (fun o => (bestParent models (docs.filter (fun d => d.kind == k)) o).isNone) := by
  rw [resolveKind_eq, renameChildren_map_op, elideForest_map_op, assembleForest_map_op]

/-- C3: for a fixed schema, document list and configuration, the pipeline is
deterministic — two runs yield equal `SdkDefinitions` — and on success every
forest preserves first-seen document order at every level: the roots of every
forest and the children of every node form order-preserving sublists of the
document list. -/
theorem sdk_definitions_deterministic_ordered (limit : Nat) (docs : List OperationDoc)
    (models : List SdkModel) :
    getSdkDefinitions limit docs models = getSdkDefinitions limit docs models ∧
    (∀ defs, getSdkDefinitions limit docs models = .ok defs →
      ∀ f ∈ defs.forests, (f.map (fun d => d.op)).Sublist docs ∧
        ∀ p, InForest p f → (p.children.map (fun d => d.op)).Sublist docs) := by
  refine ⟨rfl, fun defs h f hf => ?_⟩
  rcases getSdkDefinitions_ok h with ⟨hq, hm, hs⟩
  simp only [SdkDefinitions.forests, List.mem_cons, List.not_mem_nil, or_false] at hf
  have main : ∀ (k : OpKind), f = (resolveKind limit models docs k).1 →
      (f.map (fun d => d.op)).Sublist docs ∧
        ∀ p, InForest p f → (p.children.map (fun d => d.op)).Sublist docs := by
    intro k hfk
    subst hfk
    constructor
    · rw [resolveKind_map_op]
      exact (List.filter_sublist _).trans (List.filter_sublist _)
    · intro p hp
      exact resolveKind_inForest_children_sublist limit models docs k p hp
  rcases hf with hfq | hfm | hfs
  · exact main .query (by rw [hfq, hq])
  · exact main .mutation (by rw [hfm, hm])
  · exact main .subscription (by rw [hfs, hs])

/-- Witness for C3: the scenario's query forest lists its roots in document
order as a sublist of the document list. -/
theorem sdk_definitions_deterministic_ordered_witness :
    ([issueChainNode].map (fun d => d.op)).Sublist [issueOp, commentsOp] :=
  ((sdk_definitions_deterministic_ordered 3 [issueOp, commentsOp] [issueModel]).2
    scenarioDefs rfl [issueChainNode] (by simp [scenarioDefs, SdkDefinitions.forests])).1

end LinearSdk
